import Mathlib

/-!
Verification of the YOLO model-assembly and detection-decoding core
(`models/yolo.py`): the graph builder `parse_model`, the execution engine
`Model._forward_once`, the detection head `Detect.forward` / `Detect._make_grid`,
bias initialization `Model._initialize_biases`, and the augmentation decoder
`Model._forward_augment` / `Model._descale_pred` / `Model._clip_augmented`.

The source is shallowly embedded: tensors become index functions over `Fin`
bounds with rational entries, the imperative build loop becomes a structural
recursion returning `Except`, Python list indexing (negative indices allowed)
and Python slice semantics are modelled explicitly, and the opaque neural
modules and the elementwise `sigmoid` of the tensor runtime are abstracted as
function parameters.
-/

namespace Yolo

/-! ## Width scaling (`make_divisible`)

The function `make_divisible` lives in `utils/general.py`, which is not part
of the sources under verification; it is modelled from the specification. -/

/-- Modelled from the spec: `utils.general.make_divisible` is not under the
verified sources.  Spec 4.1: width scaling rounds to the nearest multiple of 8
(never below 8) and corrects upward if the rounding dropped below 90% of the
raw scaled value.  `roundNearestMult8 v` is the nearest multiple of 8 to `v`,
ties rounding up. -/
def roundNearestMult8 (v : ℚ) : ℤ := 8 * ⌊v / 8 + 1 / 2⌋

/-- Modelled from the spec: the base value before the 90% correction, a
nearest multiple of 8 floored at 8. -/
def mdBase (v : ℚ) : ℤ := max 8 (roundNearestMult8 v)

/-- Modelled from the spec: the `make_divisible`-style rounding with divisor 8,
floored at 8, with the 90% upward correction. -/
def make_divisible8 (v : ℚ) : ℤ :=
  if ((mdBase v : ℤ) : ℚ) < 9 / 10 * v then mdBase v + 8 else mdBase v

/-- Output-channel resolution for standard channel-changing layers
(`parse_model`, the `c2 = make_divisible(c2 * gw, 8)` guarded by
`if c2 != no`): a declared channel count equal to the head total-output
count `no` passes through unscaled. -/
def resolveOutChannels (no : ℕ) (gw : ℚ) (c : ℕ) : ℕ :=
  if c = no then c else (make_divisible8 ((c : ℚ) * gw)).toNat

lemma roundNearestMult8_le (v : ℚ) : (roundNearestMult8 v : ℚ) ≤ v + 4 := by
  unfold roundNearestMult8
  have h := Int.floor_le (v / 8 + 1 / 2)
  push_cast
  nlinarith [h]

lemma lt_roundNearestMult8 (v : ℚ) : v - 4 < (roundNearestMult8 v : ℚ) := by
  unfold roundNearestMult8
  have h := Int.lt_floor_add_one (v / 8 + 1 / 2)
  push_cast
  nlinarith [h]

lemma mdBase_ge_8 (v : ℚ) : (8 : ℤ) ≤ mdBase v := le_max_left _ _

lemma mdBase_dvd (v : ℚ) : 8 ∣ mdBase v := by
  have h : (8 : ℤ) ∣ roundNearestMult8 v := ⟨⌊v / 8 + 1 / 2⌋, rfl⟩
  have h8 : (8 : ℤ) ∣ (8 : ℤ) := ⟨1, by ring⟩
  unfold mdBase
  rcases max_choice (8 : ℤ) (roundNearestMult8 v) with h2 | h2 <;> rw [h2]
  exact h

lemma make_divisible8_pos (v : ℚ) : 0 < make_divisible8 v := by
  unfold make_divisible8
  have h8 := mdBase_ge_8 v
  split <;> omega

lemma make_divisible8_dvd (v : ℚ) : 8 ∣ make_divisible8 v := by
  unfold make_divisible8
  have h1 := mdBase_dvd v
  split
  · exact dvd_add h1 (dvd_refl (8 : ℤ))
  · exact h1

/-- The base value `mdBase v` is a closest positive multiple of 8 to `v`:
any other positive multiple of 8 is at least as far. -/
lemma mdBase_closest (v : ℚ) (m : ℤ) (hm : 0 < m) (hdvd : 8 ∣ m) :
    |((mdBase v : ℤ) : ℚ) - v| ≤ |(m : ℚ) - v| := by
  obtain ⟨j, hj⟩ := hdvd
  subst hj
  have hj1 : (1 : ℤ) ≤ j := by omega
  have hj1q : (1 : ℚ) ≤ (j : ℚ) := by exact_mod_cast hj1
  have hcast : ((8 * j : ℤ) : ℚ) = 8 * (j : ℚ) := by push_cast; ring
  rw [hcast]
  have habs1 : 8 * (j : ℚ) - v ≤ |8 * (j : ℚ) - v| := le_abs_self _
  have habs2 : v - 8 * (j : ℚ) ≤ |8 * (j : ℚ) - v| := by
    rw [abs_sub_comm]; exact le_abs_self _
  set k := ⌊v / 8 + 1 / 2⌋ with hk
  have hlo : v - 4 < 8 * (k : ℚ) := by
    have := lt_roundNearestMult8 v
    unfold roundNearestMult8 at this
    push_cast at this
    linarith
  have hhi : 8 * (k : ℚ) ≤ v + 4 := by
    have := roundNearestMult8_le v
    unfold roundNearestMult8 at this
    push_cast at this
    linarith
  rcases max_choice (8 : ℤ) (roundNearestMult8 v) with h | h
  · -- the 8-floor is active: `8 * k ≤ 8`, hence `v < 12`
    have hb : roundNearestMult8 v ≤ 8 := max_eq_left_iff.mp h
    have hbk : 8 * (k : ℚ) ≤ 8 := by
      unfold roundNearestMult8 at hb
      exact_mod_cast hb
    have hv12 : v < 12 := by linarith
    have hmd : mdBase v = 8 := h
    rw [hmd]
    have h8q : (((8 : ℤ) : ℚ)) = 8 := by norm_num
    rw [h8q, abs_sub_le_iff]
    rcases eq_or_lt_of_le hj1 with h1 | h1
    · have hjq1 : (j : ℚ) = 1 := by exact_mod_cast h1.symm
      rw [hjq1] at habs1 habs2 ⊢
      constructor <;> linarith
    · have hj2q : (2 : ℚ) ≤ (j : ℚ) := by exact_mod_cast h1
      constructor <;> linarith
  · -- the rounded value is active: `mdBase v = 8 * k` with `8 ≤ 8 * k`
    have hkk : roundNearestMult8 v = 8 * k := by rw [roundNearestMult8, hk]
    have hmd : mdBase v = 8 * k := by unfold mdBase; rw [h]; exact hkk
    have hb : (8 : ℤ) ≤ 8 * k := by
      have h2 := max_eq_right_iff.mp h
      rw [hkk] at h2
      omega
    have hkq1 : (1 : ℚ) ≤ (k : ℚ) := by
      have : (1 : ℤ) ≤ k := by omega
      exact_mod_cast this
    rw [hmd]
    have hcast2 : ((8 * k : ℤ) : ℚ) = 8 * (k : ℚ) := by push_cast; ring
    rw [hcast2, abs_sub_le_iff]
    rcases lt_trichotomy j k with hlt | heq | hgt
    · have hjk : (j : ℚ) ≤ (k : ℚ) - 1 := by
        have : j ≤ k - 1 := by omega
        exact_mod_cast this
      constructor <;> linarith
    · subst heq
      constructor <;> linarith
    · have hjk : (k : ℚ) + 1 ≤ (j : ℚ) := by
        have : k + 1 ≤ j := by omega
        exact_mod_cast this
      constructor <;> linarith

/-- C2.  For a standard channel-changing layer with declared output channels
`c` and width multiplier `gw`: if `c` equals the head total-output count `no`,
it passes through unscaled; otherwise the resolved count is (the `toNat`
image of) a closest positive multiple of 8 to `c*gw`, bumped one multiple up
exactly when that closest multiple falls below 90% of `c*gw`. -/
theorem c2_width_scaling (no : ℕ) (gw : ℚ) (c : ℕ) :
    (c = no → resolveOutChannels no gw c = c) ∧
    (c ≠ no →
      ∃ b : ℤ, 0 < b ∧ 8 ∣ b ∧
        (∀ m : ℤ, 0 < m → 8 ∣ m → |(b : ℚ) - c * gw| ≤ |(m : ℚ) - c * gw|) ∧
        resolveOutChannels no gw c =
          (if (b : ℚ) < 9 / 10 * (c * gw) then b + 8 else b).toNat ∧
        0 < resolveOutChannels no gw c ∧ 8 ∣ resolveOutChannels no gw c) := by
  constructor
  · intro h; simp [resolveOutChannels, h]
  · intro h
    refine ⟨mdBase ((c : ℚ) * gw), ?_, mdBase_dvd _, ?_, ?_, ?_, ?_⟩
    · have := mdBase_ge_8 ((c : ℚ) * gw)
      omega
    · exact fun m hm hdvd => mdBase_closest ((c : ℚ) * gw) m hm hdvd
    · simp only [resolveOutChannels, if_neg h, make_divisible8]
    · have := make_divisible8_pos ((c : ℚ) * gw)
      simp only [resolveOutChannels, if_neg h]
      omega
    · have hd := make_divisible8_dvd ((c : ℚ) * gw)
      have hp := make_divisible8_pos ((c : ℚ) * gw)
      simp only [resolveOutChannels, if_neg h]
      obtain ⟨j, hj⟩ := hd
      refine ⟨j.toNat, ?_⟩
      omega

/-- Witness for C2 at `c = 64`, `no = 255`, `gw = 1/2`: the resolved output
channel count is 32. -/
theorem c2_width_scaling_witness :
    (64 : ℕ) ≠ 255 ∧
      (∃ b : ℤ, 0 < b ∧ 8 ∣ b ∧
        (∀ m : ℤ, 0 < m → 8 ∣ m →
          |(b : ℚ) - 64 * (1 / 2)| ≤ |(m : ℚ) - 64 * (1 / 2)|) ∧
        resolveOutChannels 255 (1 / 2) 64 =
          (if (b : ℚ) < 9 / 10 * (64 * (1 / 2)) then b + 8 else b).toNat ∧
        0 < resolveOutChannels 255 (1 / 2) 64 ∧
        8 ∣ resolveOutChannels 255 (1 / 2) 64) ∧
      resolveOutChannels 255 (1 / 2) 64 = 32 :=
  ⟨by decide, (c2_width_scaling 255 (1 / 2) 64).2 (by decide), by
    have h32 : (((64 : ℕ) : ℚ) * (1 / 2)) = 32 := by norm_num
    have hfl : ⌊(32 : ℚ) / 8 + 1 / 2⌋ = (4 : ℤ) := by
      norm_num [Int.floor_eq_iff]
    rw [resolveOutChannels, if_neg (by decide), h32, make_divisible8, mdBase,
      roundNearestMult8, hfl]
    norm_num
    decide
    ⟩

/-! ## Augmentation decoder

`Model._forward_augment`, `Model._descale_pred` and `Model._clip_augmented`.
Decoded predictions are lists of per-prediction channel vectors
`Fin no → ℚ` (one entry per prediction along the prediction axis); images,
the image scaler `scale_img` and the single-pass forward are opaque
collaborators passed as parameters. -/

/-- Python slice `l[:-i]` along the prediction axis: for `i = 0` Python
gives `l[:0]`, the empty list; otherwise all but the last `i` entries. -/
def pySliceToNeg {α : Type} (l : List α) (i : ℕ) : List α :=
  if i = 0 then [] else l.take (l.length - i)

/-- `Model._clip_augmented`: `g = sum(4 ** x for x in range(nl))`, `e = 1`;
the first pass loses its last `(len0 // g) * sum(4 ** x for x in range(e))`
entries, then the last pass loses its first
`(len2 // g) * sum(4 ** (nl - 1 - x) for x in range(e))` entries. -/
def clipAugmented {α : Type} (nl : ℕ) (y : List (List α)) : List (List α) :=
  let g := ((List.range nl).map (fun x => 4 ^ x)).sum
  let e := 1
  let i := ((y.headD []).length / g) * ((List.range e).map (fun x => 4 ^ x)).sum
  let y1 := y.set 0 (pySliceToNeg (y.headD []) i)
  let i2 := ((y1.getLastD []).length / g) *
    ((List.range e).map (fun x => 4 ^ (nl - 1 - x))).sum
  y1.set (y1.length - 1) ((y1.getLastD []).drop i2)

/-- Per-prediction transform of `Model._descale_pred` (the `inplace` branch):
channels 0..3 are divided by the scale, then channel 1 is reflected about the
image height when `flips = 2` (up-down), or channel 0 about the image width
when `flips = 3` (left-right). -/
def descaleVec (no : ℕ) (flips : ℕ) (scale imgH imgW : ℚ)
    (v : Fin no → ℚ) : Fin no → ℚ :=
  let v1 : Fin no → ℚ := fun c => if c.val < 4 then v c / scale else v c
  if flips = 2 then fun c => if c.val = 1 then imgH - v1 c else v1 c
  else if flips = 3 then fun c => if c.val = 0 then imgW - v1 c else v1 c
  else v1

/-- `Model._descale_pred` applied across the prediction axis. -/
def descalePred (no : ℕ) (p : List (Fin no → ℚ)) (flips : ℕ)
    (scale imgH imgW : ℚ) : List (Fin no → ℚ) :=
  p.map (descaleVec no flips scale imgH imgW)

/-- `Model._forward_augment`: three passes over scales `[1, 0.83, 0.67]` and
flip codes `[None, 3, None]` (modelled as 0 for no flip); each pass flips the
image when the flip code is nonzero, rescales it, runs single-pass inference
(taking the decoded-prediction component), de-scales the result, then the
tails are clipped and the passes concatenated.  `imgH`/`imgW` are the input
spatial size read before the loop; `gs` is the maximal stride. -/
def forwardAugment {Img : Type} (no nl : ℕ) (flipFn : ℕ → Img → Img)
    (scaleImg : Img → ℚ → ℚ → Img)
    (forwardOnceDecoded : Img → List (Fin no → ℚ)) (gs : ℚ) (x : Img)
    (imgH imgW : ℚ) : List (Fin no → ℚ) :=
  let sf : List (ℚ × ℕ) := [(1, 0), (83 / 100, 3), (67 / 100, 0)]
  let y := sf.map (fun p =>
    descalePred no
      (forwardOnceDecoded
        (scaleImg (if p.2 ≠ 0 then flipFn p.2 x else x) p.1 gs))
      p.2 p.1 imgH imgW)
  (clipAugmented nl y).flatten

/-- The clipping behaviour asserted by claim C1 (spec 8.8), at a given input
with 3 scales: some count `k` of entries is removed from the head (leading
fraction) of the first, original-scale pass and the same count from the tail
(trailing fraction) of the last, smallest-scale pass, middle pass untouched.
A removed count never exceeds the pass length, so `k` ranges over
`Fin (length + 1)` and the proposition is decidable. -/
def clipHeadTailSpec (y0 y1 y2 : List ℕ) : Prop :=
  ∃ k : Fin (y0.length + 1),
    clipAugmented 3 [y0, y1, y2] =
      [y0.drop k.val, y1, y2.take (y2.length - k.val)]

/-- C1, counterexample: on three passes of 21 predictions each, the code
removes 1 entry from the tail of the first pass and 16 entries from the head
of the last pass — no single count removed from the head of the first pass
and the tail of the last pass reproduces it. -/
theorem c1_clip_counterexample :
    ¬ clipHeadTailSpec (List.range 21) (List.range 21) (List.range 21) := by
  unfold clipHeadTailSpec
  decide

/-- C1, amended.  For 3 detection scales (`g = 21`), tail clipping removes
exactly `len0 / 21` entries from the tail of the first (original-scale) pass
and `16 * (len2 / 21)` entries from the head of the last (smallest-scale)
pass, leaving the middle pass untouched.  The hypothesis `21 ≤ y0.length`
keeps the first removal count positive (for shorter inputs the Python slice
`[:-0]` empties the first pass instead). -/
theorem c1_clip_amended {α : Type} (y0 y1 y2 : List α)
    (h : 21 ≤ y0.length) :
    clipAugmented 3 [y0, y1, y2] =
      [y0.take (y0.length - y0.length / 21), y1,
        y2.drop (16 * (y2.length / 21))] := by
  have hi : y0.length / 21 ≠ 0 := by
    have : 1 ≤ y0.length / 21 := (Nat.one_le_div_iff (by norm_num)).mpr h
    omega
  have key : clipAugmented 3 [y0, y1, y2] =
      [pySliceToNeg y0 (y0.length / 21 * 1), y1,
        y2.drop (y2.length / 21 * 16)] := rfl
  rw [key, Nat.mul_one]
  unfold pySliceToNeg
  rw [if_neg hi, Nat.mul_comm (y2.length / 21) 16]

/-- Witness for the amended C1 at three passes of 21 distinct predictions. -/
theorem c1_clip_amended_witness :
    21 ≤ (List.range 21).length ∧
      clipAugmented 3 [List.range 21, List.range 21, List.range 21] =
        [(List.range 21).take
            ((List.range 21).length - (List.range 21).length / 21),
          List.range 21,
          (List.range 21).drop (16 * ((List.range 21).length / 21))] :=
  ⟨by decide, c1_clip_amended _ _ _ (by decide)⟩

/-- C6.  Augmented inference runs exactly the three passes
(scale 1, no flip), (scale 0.83, left-right flip), (scale 0.67, no flip),
de-scales each before clipping and concatenation; and the de-scaling
transform divides channels 0..3 (box coordinates) by the pass scale and,
for a left-right flip (code 3), reflects channel 0 as `imgW - x`, for an
up-down flip (code 2), reflects channel 1 as `imgH - y`, leaving the
remaining channels unchanged. -/
theorem c6_augment_schedule {Img : Type} (no nl : ℕ) (flipFn : ℕ → Img → Img)
    (scaleImg : Img → ℚ → ℚ → Img)
    (fwd : Img → List (Fin no → ℚ)) (gs : ℚ) (x : Img) (imgH imgW : ℚ) :
    forwardAugment no nl flipFn scaleImg fwd gs x imgH imgW =
      (clipAugmented nl
        [descalePred no (fwd (scaleImg x 1 gs)) 0 1 imgH imgW,
          descalePred no (fwd (scaleImg (flipFn 3 x) (83 / 100) gs)) 3
            (83 / 100) imgH imgW,
          descalePred no (fwd (scaleImg x (67 / 100) gs)) 0 (67 / 100) imgH
            imgW]).flatten ∧
    (∀ (p : List (Fin no → ℚ)) (flips : ℕ) (s : ℚ),
      descalePred no p flips s imgH imgW =
        p.map (descaleVec no flips s imgH imgW)) ∧
    (∀ (s : ℚ) (v : Fin no → ℚ) (c : Fin no),
      descaleVec no 3 s imgH imgW v c =
        if c.val = 0 then imgW - v c / s
        else if c.val < 4 then v c / s else v c) ∧
    (∀ (s : ℚ) (v : Fin no → ℚ) (c : Fin no),
      descaleVec no 2 s imgH imgW v c =
        if c.val = 1 then imgH - v c / s
        else if c.val < 4 then v c / s else v c) ∧
    (∀ (s : ℚ) (v : Fin no → ℚ) (c : Fin no),
      descaleVec no 0 s imgH imgW v c =
        if c.val < 4 then v c / s else v c) := by
  refine ⟨rfl, fun p flips s => rfl, ?_, ?_, fun s v c => rfl⟩
  · intro s v c
    by_cases hc0 : c.val = 0
    · simp [descaleVec, hc0]
    · simp [descaleVec, hc0]
  · intro s v c
    by_cases hc1 : c.val = 1
    · simp [descaleVec, hc1]
    · simp [descaleVec, hc1]

/-! ## Graph builder (`parse_model`)

The build loop is embedded as a structural recursion over the layer-spec
list, threading the layer counter `i`, the channel trace `ch` and the save
accumulator, with Python runtime errors (out-of-range indexing, `x % 0`,
iterating/indexing with the wrong source shape) surfaced through `Except`.
Layer types are grouped by their channel-inference rule: `std` covers the
convolution/bottleneck families that read `ch[f]` and apply width scaling;
`concat` reads `ch[x]` for every source; `passThrough` covers the
`ConvNeXt`/`RepLKNet`/`HorNet`/torchvision-stage branches whose output
channels come from the declared argument with no channel-trace read.
Module construction itself is opaque and not modelled; repeat counts and
per-layer arguments do not affect channels, save list or build errors for
these families and are omitted. -/

/-- Python runtime errors surfaced during the build. -/
inductive PErr where
  | indexError : PErr
  | zeroDivisionError : PErr
  | typeError : PErr
deriving DecidableEq

/-- Channel-inference families of layer types in `parse_model`. -/
inductive MType where
  | std : ℕ → MType
  | concat : MType
  | passThrough : ℕ → MType
deriving DecidableEq

/-- One layer spec: a source (single index or multi-source list) and the
layer type family (carrying the declared output-channel argument where the
family uses one). -/
structure PSpec where
  f : ℤ ⊕ List ℤ
  m : MType
deriving DecidableEq

/-- The source list of a spec: `[f]` for a single index, the list itself
for a multi-source spec. -/
def srcList : ℤ ⊕ List ℤ → List ℤ
  | .inl j => [j]
  | .inr js => js

/-- Python list indexing `l[j]`: negative `j` counts from the end;
out-of-range raises `IndexError`. -/
def pyGetE {α : Type} (l : List α) (j : ℤ) : Except PErr α :=
  let j2 : ℤ := if j < 0 then j + l.length else j
  if h : 0 ≤ j2 ∧ j2.toNat < l.length then .ok (l.get ⟨j2.toNat, h.2⟩)
  else .error .indexError

/-- Python `x % i` for a nonnegative modulus: `ZeroDivisionError` when
`i = 0`, otherwise the nonnegative remainder (Euclidean `emod`). -/
def pyMod (x : ℤ) (i : ℕ) : Except PErr ℕ :=
  if i = 0 then .error .zeroDivisionError else .ok (x.emod i).toNat

/-- Sequential error-propagating map, mirroring Python evaluation order of
comprehensions and generator sums. -/
def mapE {α β : Type} (f : α → Except PErr β) : List α → Except PErr (List β)
  | [] => .ok []
  | x :: xs =>
    match f x with
    | .error e => .error e
    | .ok y =>
      match mapE f xs with
      | .error e => .error e
      | .ok ys => .ok (y :: ys)

/-- Channel inference for one spec against the current channel trace `ch`:
the dispatch of `parse_model` restricted to the modelled families. -/
def computeC2 (no : ℕ) (gw : ℚ) (ch : List ℕ) (s : PSpec) : Except PErr ℕ :=
  match s.m, s.f with
  | .std c2a, .inl j =>
    match pyGetE ch j with
    | .error e => .error e
    | .ok _ => .ok (resolveOutChannels no gw c2a)
  | .std _, .inr _ => .error .typeError
  | .concat, .inr js =>
    match mapE (pyGetE ch) js with
    | .error e => .error e
    | .ok cs => .ok cs.sum
  | .concat, .inl _ => .error .typeError
  | .passThrough c2a, _ => .ok c2a

/-- The save-list extension of layer `i`:
`save.extend(x % i for x in ([f] if isinstance(f, int) else f) if x != -1)`. -/
def saveRefs (i : ℕ) (f : ℤ ⊕ List ℤ) : Except PErr (List ℕ) :=
  mapE (fun x => pyMod x i) ((srcList f).filter (fun x => x != -1))

/-- The build loop of `parse_model`: per spec, infer the output channels,
extend the save accumulator, then replace the synthetic input-channel entry
after layer 0 (`if i == 0: ch = []`) and append the layer's output
channels. -/
def parseGo (no : ℕ) (gw : ℚ) :
    ℕ → List ℕ → List ℕ → List PSpec → Except PErr (List ℕ × List ℕ)
  | _, ch, save, [] => .ok (ch, save)
  | i, ch, save, s :: rest =>
    match computeC2 no gw ch s with
    | .error e => .error e
    | .ok c2 =>
      match saveRefs i s.f with
      | .error e => .error e
      | .ok refs =>
        parseGo no gw (i + 1) ((if i = 0 then [] else ch) ++ [c2])
          (save ++ refs) rest

/-- `parse_model`: run the build loop from the synthetic input-channel trace
`[c0]`, then return the channel trace and `sorted(save)`. -/
def parseModel (no : ℕ) (gw : ℚ) (c0 : ℕ) (specs : List PSpec) :
    Except PErr (List ℕ × List ℕ) :=
  (parseGo no gw 0 [c0] [] specs).map
    (fun p => (p.1, List.insertionSort (· ≤ ·) p.2))

/-- The normalized non-(-1) references contributed by layer `i` on a
successful build: each non-(-1) source index taken `emod i`. -/
def refNorm (i : ℕ) (f : ℤ ⊕ List ℤ) : List ℕ :=
  ((srcList f).filter (fun x => x != -1)).map (fun x => (x.emod i).toNat)

/-- All normalized references gathered across a spec list starting at layer
index `i`. -/
def gatheredRefs : ℕ → List PSpec → List ℕ
  | _, [] => []
  | i, s :: rest => refNorm i s.f ++ gatheredRefs (i + 1) rest

/-- Does this layer family read the channel trace at its source indices? -/
def readsChannels : MType → Bool
  | .std _ => true
  | .concat => true
  | .passThrough _ => false

/-- A source naming an index at or beyond the layer's own position `i`
(forward or self reference). -/
def badForwardRefB (i : ℕ) (f : ℤ ⊕ List ℤ) : Bool :=
  match f with
  | .inl j => decide ((i : ℤ) ≤ j)
  | .inr js => js.any (fun j => decide ((i : ℤ) ≤ j))

/-- Is a build result an error (no partially built model is returned)? -/
def exceptIsError {ε α : Type} : Except ε α → Bool
  | .error _ => true
  | .ok _ => false

lemma pyMod_ok {x : ℤ} {i : ℕ} {y : ℕ} (h : pyMod x i = .ok y) :
    i ≠ 0 ∧ y = (x.emod i).toNat := by
  unfold pyMod at h
  by_cases hi : i = 0
  · rw [if_pos hi] at h; simp at h
  · rw [if_neg hi] at h
    simp at h
    exact ⟨hi, h.symm⟩

lemma mapE_ok_pyMod {i : ℕ} : ∀ {xs : List ℤ} {l : List ℕ},
    mapE (fun x => pyMod x i) xs = .ok l →
    l = xs.map (fun x => (x.emod i).toNat) := by
  intro xs
  induction xs with
  | nil =>
    intro l h
    simp [mapE] at h
    simp [h.symm]
  | cons x xs ih =>
    intro l h
    cases hpm : pyMod x i with
    | error e => simp [mapE, hpm] at h
    | ok y =>
      cases hm : mapE (fun x => pyMod x i) xs with
      | error e => simp [mapE, hpm, hm] at h
      | ok ys =>
        simp [mapE, hpm, hm] at h
        obtain ⟨hi, hy⟩ := pyMod_ok hpm
        rw [← h, hy, ih hm]
        simp

lemma saveRefs_ok {i : ℕ} {f : ℤ ⊕ List ℤ} {l : List ℕ}
    (h : saveRefs i f = .ok l) : l = refNorm i f := by
  unfold saveRefs at h
  unfold refNorm
  exact mapE_ok_pyMod h

lemma parseGo_ok_save (no : ℕ) (gw : ℚ) :
    ∀ (specs : List PSpec) (i : ℕ) (ch acc : List ℕ)
      (res : List ℕ × List ℕ),
      parseGo no gw i ch acc specs = .ok res →
      res.2 = acc ++ gatheredRefs i specs := by
  intro specs
  induction specs with
  | nil =>
    intro i ch acc res h
    simp [parseGo] at h
    simp [gatheredRefs, ← h]
  | cons s rest ih =>
    intro i ch acc res h
    cases hc2 : computeC2 no gw ch s with
    | error e => simp [parseGo, hc2] at h
    | ok c2 =>
      cases hsr : saveRefs i s.f with
      | error e => simp [parseGo, hc2, hsr] at h
      | ok refs =>
        have h2 : parseGo no gw (i + 1) ((if i = 0 then [] else ch) ++ [c2])
            (acc ++ refs) rest = .ok res := by
          simpa [parseGo, hc2, hsr] using h
        rw [ih (i + 1) _ (acc ++ refs) res h2, saveRefs_ok hsr]
        simp [gatheredRefs, List.append_assoc]

lemma mem_gatheredRefs (k : ℕ) :
    ∀ (specs : List PSpec) (i0 : ℕ),
      k ∈ gatheredRefs i0 specs ↔
        ∃ j, ∃ hj : j < specs.length,
          k ∈ refNorm (i0 + j) (specs.get ⟨j, hj⟩).f := by
  intro specs
  induction specs with
  | nil => intro i0; simp [gatheredRefs]
  | cons s rest ih =>
    intro i0
    simp only [gatheredRefs, List.mem_append, ih (i0 + 1)]
    constructor
    · rintro (hm | ⟨j, hj, hmem⟩)
      · exact ⟨0, by simp, by simpa using hm⟩
      · refine ⟨j + 1, by simpa using Nat.succ_lt_succ hj, ?_⟩
        have harith : i0 + 1 + j = i0 + (j + 1) := by omega
        rw [harith] at hmem
        simpa using hmem
    · rintro ⟨j, hj, hmem⟩
      cases j with
      | zero => exact Or.inl (by simpa using hmem)
      | succ j2 =>
        refine Or.inr ⟨j2, by simpa using Nat.lt_of_succ_lt_succ hj, ?_⟩
        have harith : i0 + (j2 + 1) = i0 + 1 + j2 := by omega
        rw [harith] at hmem
        simpa using hmem

/-- C4, amended.  On every successful build, the returned save list is
sorted ascending and contains exactly the indices that occur as normalized
non-(-1) source references of some layer (`emod` the referencing layer's own
index); uniqueness is not guaranteed, since `sorted(save)` keeps one
occurrence per referencing layer. -/
theorem c4_savelist_sorted_complete (no : ℕ) (gw : ℚ) (c0 : ℕ)
    (specs : List PSpec) (chs sv : List ℕ)
    (h : parseModel no gw c0 specs = .ok (chs, sv)) :
    sv.Sorted (· ≤ ·) ∧
      ∀ k : ℕ, k ∈ sv ↔ ∃ j, ∃ hj : j < specs.length,
        k ∈ refNorm j (specs.get ⟨j, hj⟩).f := by
  unfold parseModel at h
  cases hgo : parseGo no gw 0 [c0] [] specs with
  | error e => rw [hgo] at h; simp [Except.map] at h
  | ok p =>
    rw [hgo] at h
    simp [Except.map] at h
    have hsv : sv = List.insertionSort (· ≤ ·) p.2 := h.2.symm
    have hsave := parseGo_ok_save no gw specs 0 [c0] [] p hgo
    constructor
    · rw [hsv]
      exact List.sorted_insertionSort _ _
    · intro k
      rw [hsv, List.mem_insertionSort, hsave]
      simpa using mem_gatheredRefs k specs 0

/-- A spec list on which two later layers reference the same earlier index. -/
def c4ExSpecs : List PSpec :=
  [⟨.inl (-1), .passThrough 16⟩, ⟨.inl (-1), .passThrough 32⟩,
    ⟨.inr [-1, 0], .concat⟩, ⟨.inr [-1, 0], .concat⟩]

/-- C4, counterexample: layers 2 and 3 both reference layer 0, so the
returned save list is `[0, 0]` — sorted and complete, but index 0 appears
twice, refuting the claim that each present index appears exactly once
(`sorted(save)` does not deduplicate). -/
theorem c4_savelist_counterexample :
    parseModel 255 1 3 c4ExSpecs = .ok ([16, 32, 48, 64], [0, 0]) ∧
      ¬ ([0, 0] : List ℕ).Nodup := by
  constructor
  · rfl
  · decide

/-- Witness for the amended C4 on a small successful build. -/
theorem c4_savelist_witness :
    (List.Sorted (· ≤ ·) ([0, 0] : List ℕ) ∧
      ∀ k : ℕ, k ∈ ([0, 0] : List ℕ) ↔ ∃ j, ∃ hj : j < c4ExSpecs.length,
        k ∈ refNorm j (c4ExSpecs.get ⟨j, hj⟩).f) :=
  c4_savelist_sorted_complete 255 1 3 c4ExSpecs [16, 32, 48, 64] [0, 0] rfl

lemma pyGetE_err_of_ge {α : Type} (l : List α) (j : ℤ) (h0 : 0 ≤ j)
    (hlen : l.length ≤ j.toNat) : pyGetE l j = .error .indexError := by
  have hneg : ¬ j < 0 := by omega
  simp only [pyGetE]
  rw [dif_neg (by rw [if_neg hneg]; omega)]

lemma mapE_err {α β : Type} (f : α → Except PErr β) :
    ∀ xs : List α, (∃ x ∈ xs, exceptIsError (f x) = true) →
      exceptIsError (mapE f xs) = true := by
  intro xs
  induction xs with
  | nil => rintro ⟨x, hx, _⟩; simp at hx
  | cons y ys ih =>
    rintro ⟨x, hx, hxe⟩
    cases hfy : f y with
    | error e => simp [mapE, hfy, exceptIsError]
    | ok v =>
      have hxys : x ∈ ys := by
        rcases List.mem_cons.mp hx with h1 | h1
        · rw [h1, hfy] at hxe; simp [exceptIsError] at hxe
        · exact h1
      have herr := ih ⟨x, hxys, hxe⟩
      cases hm : mapE f ys with
      | error e => simp [mapE, hfy, hm, exceptIsError]
      | ok vs => rw [hm] at herr; simp [exceptIsError] at herr

lemma parseGo_err (no : ℕ) (gw : ℚ) :
    ∀ (specs : List PSpec) (i : ℕ) (ch acc : List ℕ),
      ch.length = (if i = 0 then 1 else i) →
      (∃ k, ∃ hk : k < specs.length,
        readsChannels (specs.get ⟨k, hk⟩).m = true ∧
        badForwardRefB (i + k) (specs.get ⟨k, hk⟩).f = true) →
      exceptIsError (parseGo no gw i ch acc specs) = true := by
  intro specs
  induction specs with
  | nil => rintro i ch acc hlen ⟨k, hk, _⟩; exact absurd hk (by simp)
  | cons s rest ih =>
    rintro i ch acc hlen ⟨k, hk, hreads, hbad⟩
    cases k with
    | zero =>
      have hreads2 : readsChannels s.m = true := hreads
      have hbad0 : badForwardRefB (i + 0) s.f = true := hbad
      rw [Nat.add_zero] at hbad0
      clear hreads hbad
      obtain ⟨f, m⟩ := s
      cases m with
      | passThrough c2a => simp [readsChannels] at hreads2
      | std c2a =>
        cases f with
        | inr js => simp [parseGo, computeC2, exceptIsError]
        | inl j =>
          have hij : (i : ℤ) ≤ j := of_decide_eq_true (by simpa [badForwardRefB] using hbad0)
          by_cases hi0 : i = 0
          · subst hi0
            by_cases hj0 : j = 0
            · subst hj0
              cases hc2 : computeC2 no gw ch ⟨.inl 0, .std c2a⟩ with
              | error e => simp [parseGo, hc2, exceptIsError]
              | ok c2 =>
                have hsr : saveRefs 0 (Sum.inl (0 : ℤ)) =
                    .error .zeroDivisionError := rfl
                simp [parseGo, hc2, hsr, exceptIsError]
            · have hpg : pyGetE ch j = .error .indexError := by
                have hlen2 : ch.length = 1 := by simpa using hlen
                apply pyGetE_err_of_ge ch j (by omega)
                omega
              simp [parseGo, computeC2, hpg, exceptIsError]
          · have hpg : pyGetE ch j = .error .indexError := by
              apply pyGetE_err_of_ge ch j (by omega)
              rw [hlen, if_neg hi0]
              omega
            simp [parseGo, computeC2, hpg, exceptIsError]
      | concat =>
        cases f with
        | inl j => simp [parseGo, computeC2, exceptIsError]
        | inr js =>
          obtain ⟨j, hjmem, hjge⟩ : ∃ j ∈ js, (i : ℤ) ≤ j := by
            simp only [badForwardRefB, List.any_eq_true] at hbad0
            obtain ⟨j, hjm, hjd⟩ := hbad0
            exact ⟨j, hjm, of_decide_eq_true hjd⟩
          by_cases hi0 : i = 0
          · subst hi0
            cases hc2 : computeC2 no gw ch ⟨.inr js, .concat⟩ with
            | error e => simp [parseGo, hc2, exceptIsError]
            | ok c2 =>
              have hmem2 : j ∈ (srcList (Sum.inr js)).filter
                  (fun x => x != -1) := by
                rw [List.mem_filter]
                refine ⟨hjmem, ?_⟩
                simp only [bne_iff_ne]
                omega
              have hsre : exceptIsError (saveRefs 0 (Sum.inr js)) = true :=
                mapE_err _ _ ⟨j, hmem2, by simp [pyMod, exceptIsError]⟩
              cases hsr : saveRefs 0 (Sum.inr js) with
              | error e => simp [parseGo, hc2, hsr, exceptIsError]
              | ok refs => rw [hsr] at hsre; simp [exceptIsError] at hsre
          · have hpg : exceptIsError (pyGetE ch j) = true := by
              rw [pyGetE_err_of_ge ch j (by omega)
                (by rw [hlen, if_neg hi0]; omega)]
              rfl
            have hme : exceptIsError (mapE (pyGetE ch) js) = true :=
              mapE_err _ _ ⟨j, hjmem, hpg⟩
            cases hm : mapE (pyGetE ch) js with
            | error e => simp [parseGo, computeC2, hm, exceptIsError]
            | ok cs => rw [hm] at hme; simp [exceptIsError] at hme
    | succ k2 =>
      have hk2 : k2 < rest.length := Nat.lt_of_succ_lt_succ (by simpa using hk)
      have hreads2 : readsChannels (rest.get ⟨k2, hk2⟩).m = true := hreads
      have hbad2 : badForwardRefB (i + (k2 + 1)) (rest.get ⟨k2, hk2⟩).f = true :=
        hbad
      cases hc2 : computeC2 no gw ch s with
      | error e => simp [parseGo, hc2, exceptIsError]
      | ok c2 =>
        cases hsr : saveRefs i s.f with
        | error e => simp [parseGo, hc2, hsr, exceptIsError]
        | ok refs =>
          have hlen2 : ((if i = 0 then [] else ch) ++ [c2]).length =
              (if i + 1 = 0 then 1 else i + 1) := by
            by_cases hi : i = 0 <;> simp [hi, hlen]
          have hb2 : ∃ k, ∃ hk : k < rest.length,
              readsChannels (rest.get ⟨k, hk⟩).m = true ∧
              badForwardRefB ((i + 1) + k) (rest.get ⟨k, hk⟩).f = true := by
            refine ⟨k2, hk2, hreads2, ?_⟩
            have harith : i + (k2 + 1) = (i + 1) + k2 := by omega
            rw [harith] at hbad2
            exact hbad2
          have := ih (i + 1) _ (acc ++ refs) hlen2 hb2
          simpa [parseGo, hc2, hsr] using this

/-- A spec list with a forward reference that nonetheless builds: the
`ConvNeXt`-family branch (`passThrough`) never reads the channel trace. -/
def c8ExSpecs : List PSpec :=
  [⟨.inl (-1), .passThrough 64⟩, ⟨.inl 5, .passThrough 256⟩]

/-- C8, counterexample: layer 1 references index 5 (≥ its own position), a
forward reference, yet the build succeeds — the `ConvNeXt`-style branch
computes its output channels from the declared argument without consulting
the channel trace, so nothing fails at build time. -/
theorem c8_forward_ref_counterexample :
    (∃ hk : 1 < c8ExSpecs.length,
      badForwardRefB 1 (c8ExSpecs.get ⟨1, hk⟩).f = true) ∧
      parseModel 255 1 3 c8ExSpecs = .ok ([64, 256], [0]) := by
  exact ⟨⟨by decide, by decide⟩, rfl⟩

/-- C8, amended.  A forward or self reference fails the build (surfacing a
Python error, with no partial model returned) whenever the referencing
layer's type family consults the channel trace (`ch[f]`-reading families);
the `ConvNeXt`-style pass-through family is exempt. -/
theorem c8_forward_ref_amended (no : ℕ) (gw : ℚ) (c0 : ℕ)
    (specs : List PSpec)
    (h : ∃ k, ∃ hk : k < specs.length,
      readsChannels (specs.get ⟨k, hk⟩).m = true ∧
      badForwardRefB k (specs.get ⟨k, hk⟩).f = true) :
    exceptIsError (parseModel no gw c0 specs) = true := by
  have hmap : exceptIsError (parseModel no gw c0 specs) =
      exceptIsError (parseGo no gw 0 [c0] [] specs) := by
    unfold parseModel
    cases parseGo no gw 0 [c0] [] specs <;> simp [Except.map, exceptIsError]
  rw [hmap]
  apply parseGo_err no gw specs 0 [c0] []
  · simp
  · simpa using h

/-- A spec list whose forward reference sits on a channel-trace-reading
layer type. -/
def c8WitnessSpecs : List PSpec :=
  [⟨.inl (-1), .passThrough 64⟩, ⟨.inl 5, .std 128⟩]

/-- Witness for the amended C8: the forward reference from a standard
convolution layer aborts the build. -/
theorem c8_forward_ref_witness :
    exceptIsError (parseModel 255 1 3 c8WitnessSpecs) = true :=
  c8_forward_ref_amended 255 1 3 c8WitnessSpecs ⟨1, by decide, by decide, by decide⟩

/-! ## Detection head (`Detect.forward`, `Detect._make_grid`)

A per-scale conv output is a channel-indexed map
`Fin (na * no) → Fin ny → Fin nx → ℚ` (batch dimension elided — every
operation is per-batch-element pointwise).  `view(bs, na, no, ny, nx)`
followed by `permute(0, 1, 3, 4, 2)` becomes `reshapeScale`; the decoded,
sigmoid-transformed tensor is `decodeScale` (the `sigmoid` of the tensor
runtime is an opaque elementwise parameter); `view(bs, -1, no)` flattening
over (anchor, row, column) in row-major order is `flattenScale`.  In the
source, `y = x[i].sigmoid()` allocates a fresh tensor, so the stored
reshaped tensors are never mutated by decoding; the pure embedding mirrors
this by deriving the decoded values from, not in place of, `reshapeScale`. -/

lemma reshape_lt {na no : ℕ} (a : Fin na) (c : Fin no) :
    a.val * no + c.val < na * no :=
  calc a.val * no + c.val < a.val * no + no := by omega
    _ = (a.val + 1) * no := by ring
    _ ≤ na * no := Nat.mul_le_mul_right no a.isLt

/-- `x[i].view(bs, na, no, ny, nx).permute(0, 1, 3, 4, 2)`: anchor block `a`
of the conv output channel axis, output channel `c` within the block. -/
def reshapeScale {na no ny nx : ℕ}
    (w : Fin (na * no) → Fin ny → Fin nx → ℚ) :
    Fin na → Fin ny → Fin nx → Fin no → ℚ :=
  fun a gy gx c => w ⟨a.val * no + c.val, reshape_lt a c⟩ gy gx

/-- The coordinate grid built by `Detect._make_grid`:
`stack((xv, yv), 2)` broadcast over anchors, entry `(x, y)` at column `x`,
row `y`. -/
def makeGridFun (na ny nx : ℕ) : Fin na → Fin ny → Fin nx → ℚ × ℚ :=
  fun _ gy gx => ((gx.val : ℚ), (gy.val : ℚ))

/-- The anchor grid built by `Detect._make_grid`: the stored anchor priors
scaled by the scale's stride, broadcast over all spatial positions. -/
def makeAnchorGridEntry {na : ℕ} (anchors : Fin na → ℚ × ℚ) (stride : ℚ) :
    Fin na → ℚ × ℚ :=
  fun a => ((anchors a).1 * stride, (anchors a).2 * stride)

/-- The decoded tensor of one scale in inference mode:
`y = x[i].sigmoid()`, then `y[..., 0:2] = (y[..., 0:2] * 2 - 0.5 + grid) *
stride` and `y[..., 2:4] = (y[..., 2:4] * 2) ** 2 * anchor_grid`, the
remaining channels (objectness, class scores) kept as the sigmoid values. -/
def decodeScale {na ny nx no : ℕ} (σ : ℚ → ℚ) (stride : ℚ)
    (anchors : Fin na → ℚ × ℚ)
    (t : Fin na → Fin ny → Fin nx → Fin no → ℚ) :
    Fin na → Fin ny → Fin nx → Fin no → ℚ :=
  fun a gy gx c =>
    let yv := σ (t a gy gx c)
    if c.val = 0 then
      (yv * 2 - 1 / 2 + (makeGridFun na ny nx a gy gx).1) * stride
    else if c.val = 1 then
      (yv * 2 - 1 / 2 + (makeGridFun na ny nx a gy gx).2) * stride
    else if c.val = 2 then
      (yv * 2) ^ 2 * (makeAnchorGridEntry anchors stride a).1
    else if c.val = 3 then
      (yv * 2) ^ 2 * (makeAnchorGridEntry anchors stride a).2
    else yv

/-- Row-major decomposition of a flat prediction index over (anchor, row,
column): the anchor block. -/
def idxA (ny nx p : ℕ) : ℕ := p / (ny * nx)

/-- Row-major decomposition: the grid row. -/
def idxY (ny nx p : ℕ) : ℕ := p % (ny * nx) / nx

/-- Row-major decomposition: the grid column. -/
def idxX (ny nx p : ℕ) : ℕ := p % (ny * nx) % nx

lemma finFlat_pos {na ny nx : ℕ} (p : Fin (na * ny * nx)) : 0 < ny * nx := by
  rcases Nat.eq_zero_or_pos (ny * nx) with h | h
  · exfalso
    have hz : na * ny * nx = 0 := by rw [Nat.mul_assoc, h, Nat.mul_zero]
    have hp : p.val < na * ny * nx := p.isLt
    omega
  · exact h

lemma finFlat_nx_pos {na ny nx : ℕ} (p : Fin (na * ny * nx)) : 0 < nx := by
  have h := finFlat_pos p
  rcases Nat.eq_zero_or_pos nx with h0 | h0
  · rw [h0, Nat.mul_zero] at h
    exact absurd h (by omega)
  · exact h0

lemma idxA_lt {na ny nx : ℕ} (p : Fin (na * ny * nx)) :
    idxA ny nx p.val < na := by
  have hpos := finFlat_pos p
  have hp : p.val < na * (ny * nx) := by
    rw [← Nat.mul_assoc]
    exact p.isLt
  exact (Nat.div_lt_iff_lt_mul hpos).mpr hp

lemma idxY_lt {na ny nx : ℕ} (p : Fin (na * ny * nx)) :
    idxY ny nx p.val < ny := by
  have hpos := finFlat_pos p
  have hnx := finFlat_nx_pos p
  have hmod : p.val % (ny * nx) < ny * nx := Nat.mod_lt _ hpos
  unfold idxY
  rw [Nat.div_lt_iff_lt_mul hnx]
  exact hmod

lemma idxX_lt {na ny nx : ℕ} (p : Fin (na * ny * nx)) :
    idxX ny nx p.val < nx :=
  Nat.mod_lt _ (finFlat_nx_pos p)

/-- `y.view(bs, -1, no)`: flatten (anchor, row, column) into a single
prediction axis in row-major order. -/
def flattenScale (na ny nx no : ℕ)
    (y : Fin na → Fin ny → Fin nx → Fin no → ℚ) : List (Fin no → ℚ) :=
  List.ofFn (fun p : Fin (na * ny * nx) =>
    y ⟨idxA ny nx p.val, idxA_lt p⟩ ⟨idxY ny nx p.val, idxY_lt p⟩
      ⟨idxX ny nx p.val, idxX_lt p⟩)

lemma flat_inner_lt {ny nx : ℕ} (gy : Fin ny) (gx : Fin nx) :
    gy.val * nx + gx.val < ny * nx :=
  calc gy.val * nx + gx.val < gy.val * nx + nx := by omega
    _ = (gy.val + 1) * nx := by ring
    _ ≤ ny * nx := Nat.mul_le_mul_right nx gy.isLt

/-- The entry of the flattened scale at flat index
`a * (ny * nx) + gy * nx + gx` is the tensor entry at `(a, gy, gx)`. -/
lemma flattenScale_get {na ny nx no : ℕ}
    (y : Fin na → Fin ny → Fin nx → Fin no → ℚ) (a : Fin na) (gy : Fin ny)
    (gx : Fin nx)
    (h : a.val * (ny * nx) + gy.val * nx + gx.val <
      (flattenScale na ny nx no y).length) :
    (flattenScale na ny nx no y).get
      ⟨a.val * (ny * nx) + gy.val * nx + gx.val, h⟩ = y a gy gx := by
  have hq : 0 < ny * nx := by
    have := flat_inner_lt gy gx
    omega
  have hnx : 0 < nx := gx.pos
  have hr : gy.val * nx + gx.val < ny * nx := flat_inner_lt gy gx
  have hsplit : a.val * (ny * nx) + gy.val * nx + gx.val =
      (gy.val * nx + gx.val) + (ny * nx) * a.val := by ring
  have hA : idxA ny nx (a.val * (ny * nx) + gy.val * nx + gx.val) = a.val := by
    unfold idxA
    rw [hsplit, Nat.add_mul_div_left _ _ hq, Nat.div_eq_of_lt hr,
      Nat.zero_add]
  have hMod : (a.val * (ny * nx) + gy.val * nx + gx.val) % (ny * nx) =
      gy.val * nx + gx.val := by
    rw [hsplit, Nat.add_mul_mod_self_left, Nat.mod_eq_of_lt hr]
  have hswap : gy.val * nx + gx.val = gx.val + nx * gy.val := by ring
  have hY : idxY ny nx (a.val * (ny * nx) + gy.val * nx + gx.val) = gy.val := by
    unfold idxY
    rw [hMod, hswap, Nat.add_mul_div_left _ _ hnx, Nat.div_eq_of_lt gx.isLt,
      Nat.zero_add]
  have hX : idxX ny nx (a.val * (ny * nx) + gy.val * nx + gx.val) = gx.val := by
    unfold idxX
    rw [hMod, hswap, Nat.add_mul_mod_self_left, Nat.mod_eq_of_lt gx.isLt]
  unfold flattenScale
  rw [List.get_ofFn]
  simp [hA, hY, hX]

/-- `Detect.forward` with the batch dimension elided.  Training mode
returns only the reshaped per-scale tensors; inference mode additionally
returns the flattened decoded predictions of all scales concatenated along
the prediction axis (scale order preserved). -/
def detectForward (σ : ℚ → ℚ) {nl na no : ℕ} (training : Bool)
    (stride : Fin nl → ℚ) (anchors : Fin nl → Fin na → ℚ × ℚ)
    (ny nx : Fin nl → ℕ)
    (w : (i : Fin nl) → Fin (na * no) → Fin (ny i) → Fin (nx i) → ℚ) :
    Option (List (Fin no → ℚ)) ×
      ((i : Fin nl) → Fin na → Fin (ny i) → Fin (nx i) → Fin no → ℚ) :=
  let t := fun i => reshapeScale (w i)
  if training then (none, t)
  else
    (some (((List.finRange nl).map (fun i =>
        flattenScale na (ny i) (nx i) no
          (decodeScale σ (stride i) (anchors i) (t i)))).flatten), t)

/-- C3.  In inference mode the decoded output is the concatenation, in
scale order, of each scale's flattened decode; and at flat index
`a * (ny * nx) + gy * nx + gx` of scale `i`, channel 0 is
`(σ(raw) * 2 - 0.5 + gx) * stride i`, channel 1 the same with `gy`,
channels 2 and 3 are `(σ(raw) * 2)² * anchor * stride i` (width then
height), and every further channel (objectness, class scores) is the plain
sigmoid of the raw value. -/
theorem c3_decode (σ : ℚ → ℚ) {nl na no : ℕ} (stride : Fin nl → ℚ)
    (anchors : Fin nl → Fin na → ℚ × ℚ) (ny nx : Fin nl → ℕ)
    (w : (i : Fin nl) → Fin (na * no) → Fin (ny i) → Fin (nx i) → ℚ) :
    (detectForward σ false stride anchors ny nx w).1 =
      some (((List.finRange nl).map (fun i =>
        flattenScale na (ny i) (nx i) no
          (decodeScale σ (stride i) (anchors i)
            (reshapeScale (w i))))).flatten) ∧
    ∀ (i : Fin nl) (a : Fin na) (gy : Fin (ny i)) (gx : Fin (nx i))
      (h : a.val * (ny i * nx i) + gy.val * nx i + gx.val <
        (flattenScale na (ny i) (nx i) no
          (decodeScale σ (stride i) (anchors i)
            (reshapeScale (w i)))).length)
      (c : Fin no),
      (flattenScale na (ny i) (nx i) no
        (decodeScale σ (stride i) (anchors i) (reshapeScale (w i)))).get
          ⟨a.val * (ny i * nx i) + gy.val * nx i + gx.val, h⟩ c =
        if c.val = 0 then
          (σ (reshapeScale (w i) a gy gx c) * 2 - 1 / 2 + (gx.val : ℚ)) *
            stride i
        else if c.val = 1 then
          (σ (reshapeScale (w i) a gy gx c) * 2 - 1 / 2 + (gy.val : ℚ)) *
            stride i
        else if c.val = 2 then
          (σ (reshapeScale (w i) a gy gx c) * 2) ^ 2 *
            ((anchors i a).1 * stride i)
        else if c.val = 3 then
          (σ (reshapeScale (w i) a gy gx c) * 2) ^ 2 *
            ((anchors i a).2 * stride i)
        else σ (reshapeScale (w i) a gy gx c) := by
  refine ⟨rfl, ?_⟩
  intro i a gy gx h c
  rw [flattenScale_get]
  rfl

/-- Witness for C3 at a one-scale, one-anchor, 1×1-grid head with stride 8
and zero raw input, reading channel 0 of the single prediction. -/
theorem c3_decode_witness :
    (flattenScale 1 1 1 5
        (decodeScale (fun q => q) (8 : ℚ) (fun _ => ((2 : ℚ), (3 : ℚ)))
          (reshapeScale (fun _ _ _ => (0 : ℚ))))).get ⟨0, by decide⟩
      ⟨0, by decide⟩ = ((0 : ℚ) * 2 - 1 / 2 + 0) * 8 := by
  have h := (@c3_decode (fun q => q) 1 1 5
    (fun _ => (8 : ℚ)) (fun _ _ => ((2 : ℚ), (3 : ℚ))) (fun _ => 1)
    (fun _ => 1) (fun _ _ _ _ => (0 : ℚ))).2 0 0 0 0 (by decide)
    ⟨0, by decide⟩
  simpa [reshapeScale] using h

/-- C10.  The second component of the inference-mode return value is
exactly the training-mode output: the reshaped, permuted, pre-sigmoid conv
tensors; decoding derives a fresh sigmoid copy and never alters them. -/
theorem c10_raw_tensors_preserved (σ : ℚ → ℚ) {nl na no : ℕ}
    (stride : Fin nl → ℚ) (anchors : Fin nl → Fin na → ℚ × ℚ)
    (ny nx : Fin nl → ℕ)
    (w : (i : Fin nl) → Fin (na * no) → Fin (ny i) → Fin (nx i) → ℚ) :
    (detectForward σ false stride anchors ny nx w).2 =
      (detectForward σ true stride anchors ny nx w).2 ∧
    (detectForward σ true stride anchors ny nx w).2 =
      fun i => reshapeScale (w i) :=
  ⟨rfl, rfl⟩

/-! ## Grid cache (`Detect.forward` lines 82-83, `Detect._make_grid`) -/

/-- The per-scale grid cache: the cached spatial shape (`none` models the
initial `torch.zeros(1)` placeholder, whose `shape[2:4]` matches no
request), the coordinate grid (indexed anchor, row, column) and the anchor
grid (indexed by anchor). -/
structure GridCache where
  shape : Option (ℕ × ℕ)
  grid : ℕ → ℕ → ℕ → ℚ × ℚ
  agrid : ℕ → ℚ × ℚ

/-- `Detect._make_grid(nx, ny, i)`. -/
def makeGridCache (anchors : ℕ → ℚ × ℚ) (stride : ℚ) (ny nx : ℕ) :
    GridCache where
  shape := some (ny, nx)
  grid := fun _ gy gx => ((gx : ℚ), (gy : ℚ))
  agrid := fun a => ((anchors a).1 * stride, (anchors a).2 * stride)

/-- The cache update of `Detect.forward`:
`if self.onnx_dynamic or self.grid[i].shape[2:4] != x[i].shape[2:4]:
self.grid[i], self.anchor_grid[i] = self._make_grid(nx, ny, i)`.
Returns the cache afterwards and whether a rebuild happened. -/
def gridStep (onnxDynamic : Bool) (anchors : ℕ → ℚ × ℚ) (stride : ℚ)
    (c : GridCache) (ny nx : ℕ) : GridCache × Bool :=
  if onnxDynamic = true ∨ c.shape ≠ some (ny, nx) then
    (makeGridCache anchors stride ny nx, true)
  else (c, false)

lemma gridStep_shape (anchors : ℕ → ℚ × ℚ) (stride : ℚ) (c : GridCache)
    (ny nx : ℕ) :
    ((gridStep false anchors stride c ny nx).1).shape = some (ny, nx) := by
  unfold gridStep
  split
  · rfl
  · rename_i hcond
    push_neg at hcond
    exact hcond.2

/-- C5.  With dynamic-shape inference off, a repeated request at the same
(H, W) is a cache hit (no rebuild), and a request matching the cached shape
leaves the cache untouched; a shape mismatch or dynamic-shape mode rebuilds
both grids, the rebuilt coordinate grid holds exactly the integer pairs
`(gx, gy)` for `gx < W, gy < H` at every anchor (spanning `[0,W)×[0,H)`),
and the rebuilt anchor grid is each anchor prior scaled by the stride. -/
theorem c5_grid_cache (anchors : ℕ → ℚ × ℚ) (stride : ℚ) (c : GridCache)
    (ny nx : ℕ) :
    ((gridStep false anchors stride
        (gridStep false anchors stride c ny nx).1 ny nx).2 = false) ∧
    (c.shape = some (ny, nx) →
      gridStep false anchors stride c ny nx = (c, false)) ∧
    (∀ dyn : Bool, dyn = true ∨ c.shape ≠ some (ny, nx) →
      gridStep dyn anchors stride c ny nx =
        (makeGridCache anchors stride ny nx, true)) ∧
    (∀ a gy gx : ℕ, (makeGridCache anchors stride ny nx).grid a gy gx =
      ((gx : ℚ), (gy : ℚ))) ∧
    (∀ u v : ℕ, u < nx → v < ny → ∃ a gy gx : ℕ, gy < ny ∧ gx < nx ∧
      (makeGridCache anchors stride ny nx).grid a gy gx =
        ((u : ℚ), (v : ℚ))) ∧
    (∀ a : ℕ, (makeGridCache anchors stride ny nx).agrid a =
      ((anchors a).1 * stride, (anchors a).2 * stride)) := by
  refine ⟨?_, ?_, ?_, fun a gy gx => rfl, ?_, fun a => rfl⟩
  · have hs := gridStep_shape anchors stride c ny nx
    set c2 := (gridStep false anchors stride c ny nx).1 with hc2
    unfold gridStep
    rw [if_neg (by simp [hs])]
  · intro hsh
    unfold gridStep
    rw [if_neg (by simp [hsh])]
  · intro dyn hcond
    unfold gridStep
    rw [if_pos hcond]
  · intro u v hu hv
    exact ⟨0, v, u, hv, hu, rfl⟩

/-- Witness for C5 at the initial cache and a 2×3 request with a single
anchor prior (2, 3) and stride 8. -/
theorem c5_grid_cache_witness :
    (GridCache.mk none (fun _ _ _ => (0, 0)) (fun _ => (0, 0))).shape ≠
        some (2, 3) ∧
      gridStep false (fun _ => ((2 : ℚ), (3 : ℚ))) 8
          (GridCache.mk none (fun _ _ _ => (0, 0)) (fun _ => (0, 0))) 2 3 =
        (makeGridCache (fun _ => ((2 : ℚ), (3 : ℚ))) 8 2 3, true) :=
  ⟨by simp, by
    have h := (c5_grid_cache (fun _ => ((2 : ℚ), (3 : ℚ))) 8
      (GridCache.mk none (fun _ _ _ => (0, 0)) (fun _ => (0, 0))) 2 3).2.2.1
    exact h false (Or.inr (by simp))⟩

/-! ## Bias initialization (`Model._initialize_biases`)

Each scale's output-conv bias is viewed as `(na, no)` with `no = nc + 5`;
`b.data[:, 4] += log(8 / (640 / s) ** 2)` and
`b.data[:, 5:] += log(0.6 / (nc - 0.999999))` (or `log(cf / cf.sum())`
per class when class frequencies are given).  `log` of the numeric runtime
is an opaque parameter. -/

lemma clsIdx_lt {nc : ℕ} (c : Fin (nc + 5)) (h : 5 ≤ c.val) :
    c.val - 5 < nc := by
  have := c.isLt
  omega

/-- The objectness update `b.data[:, 4] += log(8 / (640 / s) ** 2)`. -/
def biasObjStep (log : ℚ → ℚ) (s : ℚ) {na nc : ℕ}
    (b : Fin na → Fin (nc + 5) → ℚ) : Fin na → Fin (nc + 5) → ℚ :=
  fun a c => if c.val = 4 then b a c + log (8 / (640 / s) ^ 2) else b a c

/-- The class update `b.data[:, 5:] += log(0.6 / (nc - 0.999999))` when no
class frequencies are supplied, else `+= torch.log(cf / cf.sum())`
(per-class, broadcast over anchors). -/
def biasClsStep (log : ℚ → ℚ) {na nc : ℕ} (cf : Option (Fin nc → ℚ))
    (b : Fin na → Fin (nc + 5) → ℚ) : Fin na → Fin (nc + 5) → ℚ :=
  fun a c =>
    if h : 5 ≤ c.val then
      b a c +
        (match cf with
         | none => log ((6 / 10) / ((nc : ℚ) - 999999 / 1000000))
         | some freq =>
             log (freq ⟨c.val - 5, clsIdx_lt c h⟩ /
               ((List.finRange nc).map freq).sum))
    else b a c

/-- `Model._initialize_biases` on one scale: the objectness update followed
by the class update. -/
def initializeBiases (log : ℚ → ℚ) {na nc : ℕ} (s : ℚ)
    (cf : Option (Fin nc → ℚ)) (b : Fin na → Fin (nc + 5) → ℚ) :
    Fin na → Fin (nc + 5) → ℚ :=
  biasClsStep log cf (biasObjStep log s b)

/-- `Model._initialize_biases`: the per-scale loop
`for mi, s in zip(m.m, m.stride)`. -/
def initializeBiasesAll (log : ℚ → ℚ) {nl na nc : ℕ} (stride : Fin nl → ℚ)
    (cf : Option (Fin nc → ℚ))
    (bs : Fin nl → Fin na → Fin (nc + 5) → ℚ) :
    Fin nl → Fin na → Fin (nc + 5) → ℚ :=
  fun i => initializeBiases log (stride i) cf (bs i)

/-- C9.  For each scale `i`, anchor `a` and bias column `c`: column 4 is
offset by `log(8 / (640 / stride i)²)`; columns 5 and up are offset by
`log(0.6 / (nc - 0.999999))` without class frequencies, or by
`log(freq_class / Σ freq)` with them; columns 0..3 are unchanged. -/
theorem c9_bias_offsets (log : ℚ → ℚ) {nl na nc : ℕ} (stride : Fin nl → ℚ)
    (cf : Option (Fin nc → ℚ)) (bs : Fin nl → Fin na → Fin (nc + 5) → ℚ)
    (i : Fin nl) (a : Fin na) (c : Fin (nc + 5)) :
    (c.val = 4 → initializeBiasesAll log stride cf bs i a c =
      bs i a c + log (8 / (640 / stride i) ^ 2)) ∧
    (∀ h5 : 5 ≤ c.val, initializeBiasesAll log stride cf bs i a c =
      bs i a c +
        (match cf with
         | none => log ((6 / 10) / ((nc : ℚ) - 999999 / 1000000))
         | some freq =>
             log (freq ⟨c.val - 5, clsIdx_lt c h5⟩ /
               ((List.finRange nc).map freq).sum))) ∧
    (c.val < 4 → initializeBiasesAll log stride cf bs i a c = bs i a c) := by
  refine ⟨?_, ?_, ?_⟩
  · intro h4
    unfold initializeBiasesAll initializeBiases biasClsStep biasObjStep
    rw [dif_neg (by omega), if_pos h4]
  · intro h5
    unfold initializeBiasesAll initializeBiases biasClsStep biasObjStep
    rw [dif_pos h5, if_neg (by omega)]
  · intro hlt
    unfold initializeBiasesAll initializeBiases biasClsStep biasObjStep
    rw [dif_neg (by omega), if_neg (by omega)]

/-- Witness for C9 on a one-scale, one-anchor, one-class head with stride
32, zero initial bias, `log` instantiated to the identity and no class
frequencies: column 4 becomes `8/400`, column 5 becomes
`0.6 / (1 - 0.999999)`, column 0 stays 0. -/
theorem c9_bias_offsets_witness :
    (@initializeBiasesAll (fun q => q) 1 1 1
        (fun _ => 32) none (fun _ _ _ => 0) 0 0 ⟨4, by omega⟩ =
      0 + 8 / (640 / 32) ^ 2) ∧
    (@initializeBiasesAll (fun q => q) 1 1 1
        (fun _ => 32) none (fun _ _ _ => 0) 0 0 ⟨5, by omega⟩ =
      0 + (6 / 10) / ((1 : ℚ) - 999999 / 1000000)) ∧
    (@initializeBiasesAll (fun q => q) 1 1 1
        (fun _ => 32) none (fun _ _ _ => 0) 0 0 ⟨0, by omega⟩ = 0) :=
  ⟨((c9_bias_offsets (fun q => q) (fun _ => 32) none (fun _ _ _ => 0) 0 0
      ⟨4, by omega⟩).1 rfl).trans (by norm_num),
   ((c9_bias_offsets (fun q => q) (fun _ => 32) none (fun _ _ _ => 0) 0 0
      ⟨5, by omega⟩).2.1 (by decide)).trans (by norm_num),
   (c9_bias_offsets (fun q => q) (fun _ => 32) none (fun _ _ _ => 0) 0 0
      ⟨0, by omega⟩).2.2 (by decide)⟩

/-! ## Execution engine (`Model._forward_once`)

Layer outputs are values of an abstract type `V` with a distinguished
`vnone` modelling Python `None`; each built layer carries its attached
index `m.i`, its source `m.f` and an opaque callable `m.run` accepting a
single value or a gathered list.  The loop state is the pair of the last
output `x` and the history list `y`.  Out-of-range history indexing raises
at runtime in the source; the embedding totalizes it with `vnone`, and the
routing claims below are stated for in-range references. -/

/-- One built layer as seen by the execution loop. -/
structure ELayer (V : Type) where
  i : ℕ
  f : ℤ ⊕ List ℤ
  run : V ⊕ List V → V

/-- Python `y[j]` on the history list: a negative index counts from the
end. -/
def pyGetD {V : Type} (vnone : V) (y : List V) (j : ℤ) : V :=
  if j < 0 then y.getD (y.length - (-j).toNat) vnone else y.getD j.toNat vnone

/-- Input resolution of the loop body:
`x = y[m.f] if isinstance(m.f, int) else [x if j == -1 else y[j] for j in
m.f]`, with `m.f == -1` keeping the previous output. -/
def resolveInput {V : Type} (vnone : V) (x : V) (y : List V) :
    ℤ ⊕ List ℤ → V ⊕ List V
  | .inl j => if j = -1 then .inl x else .inl (pyGetD vnone y j)
  | .inr js => .inr (js.map fun j => if j = -1 then x else pyGetD vnone y j)

/-- The loop body: run the layer on its resolved input, then
`y.append(x if m.i in self.save else None)`. -/
def stepOnce {V : Type} (vnone : V) (save : List ℕ) (st : V × List V)
    (m : ELayer V) : V × List V :=
  let out := m.run (resolveInput vnone st.1 st.2 m.f)
  (out, st.2 ++ [if m.i ∈ save then out else vnone])

/-- The loop over the entire layer sequence, from input `x0` and empty
history. -/
def runLayers {V : Type} (vnone : V) (save : List ℕ) (x0 : V)
    (layers : List (ELayer V)) : V × List V :=
  layers.foldl (stepOnce vnone save) (x0, [])

/-- `Model._forward_once`: the last layer's output. -/
def forwardOnce {V : Type} (vnone : V) (save : List ℕ) (x0 : V)
    (layers : List (ELayer V)) : V :=
  (runLayers vnone save x0 layers).1

/-- The loop state after the first `k` layers. -/
def runStates {V : Type} (vnone : V) (save : List ℕ) (x0 : V)
    (layers : List (ELayer V)) (k : ℕ) : V × List V :=
  runLayers vnone save x0 (layers.take k)

/-- The output of layer `j`. -/
def outAt {V : Type} (vnone : V) (save : List ℕ) (x0 : V)
    (layers : List (ELayer V)) (j : ℕ) : V :=
  (runStates vnone save x0 layers (j + 1)).1

/-- The `x` variable as layer `k` is about to run. -/
def prevOut {V : Type} (vnone : V) (save : List ℕ) (x0 : V)
    (layers : List (ELayer V)) (k : ℕ) : V :=
  (runStates vnone save x0 layers k).1

/-- The history list as layer `k` is about to run. -/
def histBefore {V : Type} (vnone : V) (save : List ℕ) (x0 : V)
    (layers : List (ELayer V)) (k : ℕ) : List V :=
  (runStates vnone save x0 layers k).2

/-- The input actually fed to layer `k`. -/
def receivedInput {V : Type} (vnone : V) (save : List ℕ) (x0 : V)
    (layers : List (ELayer V)) (k : ℕ) (hk : k < layers.length) :
    V ⊕ List V :=
  resolveInput vnone (prevOut vnone save x0 layers k)
    (histBefore vnone save x0 layers k) (layers.get ⟨k, hk⟩).f

lemma runStates_succ {V : Type} (vnone : V) (save : List ℕ) (x0 : V)
    (layers : List (ELayer V)) (k : ℕ) (hk : k < layers.length) :
    runStates vnone save x0 layers (k + 1) =
      stepOnce vnone save (runStates vnone save x0 layers k)
        (layers.get ⟨k, hk⟩) := by
  unfold runStates runLayers
  have ht : layers.take (k + 1) = layers.take k ++ [layers.get ⟨k, hk⟩] := by
    rw [List.take_succ, List.getElem?_eq_getElem hk]
    rfl
  rw [ht, List.foldl_append]
  rfl

lemma runStates_hist_length {V : Type} (vnone : V) (save : List ℕ) (x0 : V)
    (layers : List (ELayer V)) (k : ℕ) (hk : k ≤ layers.length) :
    (runStates vnone save x0 layers k).2.length = k := by
  induction k with
  | zero => rfl
  | succ k2 ih =>
    have hk2 : k2 < layers.length := by omega
    rw [runStates_succ vnone save x0 layers k2 hk2]
    simp only [stepOnce, List.length_append, List.length_cons,
      List.length_nil]
    rw [ih (by omega)]

lemma runStates_hist_getD {V : Type} (vnone : V) (save : List ℕ) (x0 : V)
    (layers : List (ELayer V))
    (hidx : ∀ (n : ℕ) (hn : n < layers.length), (layers.get ⟨n, hn⟩).i = n)
    (k : ℕ) (hk : k ≤ layers.length) (j : ℕ) (hj : j < k) :
    (runStates vnone save x0 layers k).2.getD j vnone =
      if j ∈ save then outAt vnone save x0 layers j else vnone := by
  induction k with
  | zero => omega
  | succ k2 ih =>
    have hk2 : k2 < layers.length := by omega
    have hlen : (runStates vnone save x0 layers k2).2.length = k2 :=
      runStates_hist_length vnone save x0 layers k2 (by omega)
    rw [runStates_succ vnone save x0 layers k2 hk2]
    simp only [stepOnce]
    rcases Nat.lt_or_ge j k2 with hj2 | hj2
    · rw [List.getD_append _ _ _ _ (by omega)]
      exact ih (by omega) hj2
    · have hjeq : j = k2 := by omega
      subst hjeq
      rw [List.getD_append_right _ _ _ _ (by omega), hlen, Nat.sub_self]
      simp only [List.getD_cons_zero]
      rw [hidx j hk2]
      have hout : outAt vnone save x0 layers j =
          (stepOnce vnone save (runStates vnone save x0 layers j)
            (layers.get ⟨j, hk2⟩)).1 := by
        unfold outAt
        rw [runStates_succ vnone save x0 layers j hk2]
      rw [hout]
      rfl

lemma pyGetD_nonneg {V : Type} (vnone : V) (y : List V) (j : ℤ)
    (h0 : 0 ≤ j) : pyGetD vnone y j = y.getD j.toNat vnone := by
  unfold pyGetD
  rw [if_neg (by omega)]

/-- C7.  Routing of `Model._forward_once`: before layer `k` runs, `x` is
layer `k-1`'s output (the network input for layer 0); a layer with source
`-1` receives exactly that previous output; an integer source `f ≥ 0`
referencing an earlier layer receives the stored history entry for `f`
(that layer's output if `f` is in the save list, the `None` value
otherwise); a multi-source layer receives the list substituting the
previous output at `-1` positions and the stored history entries
elsewhere; and after layer `k` runs, its history slot holds its output iff
`k` is in the save list, `None` otherwise. -/
theorem c7_forward_once_routing {V : Type} (vnone : V) (save : List ℕ)
    (layers : List (ELayer V)) (x0 : V)
    (hidx : ∀ (n : ℕ) (hn : n < layers.length), (layers.get ⟨n, hn⟩).i = n)
    (k : ℕ) (hk : k < layers.length) :
    (prevOut vnone save x0 layers 0 = x0) ∧
    (0 < k → prevOut vnone save x0 layers k =
      outAt vnone save x0 layers (k - 1)) ∧
    ((layers.get ⟨k, hk⟩).f = .inl (-1) →
      receivedInput vnone save x0 layers k hk =
        .inl (prevOut vnone save x0 layers k)) ∧
    (∀ j : ℤ, (layers.get ⟨k, hk⟩).f = .inl j → 0 ≤ j → j.toNat < k →
      receivedInput vnone save x0 layers k hk =
        .inl (if j.toNat ∈ save then outAt vnone save x0 layers j.toNat
          else vnone)) ∧
    (∀ js : List ℤ, (layers.get ⟨k, hk⟩).f = .inr js →
      receivedInput vnone save x0 layers k hk =
        .inr (js.map (fun j => if j = -1 then prevOut vnone save x0 layers k
          else pyGetD vnone (histBefore vnone save x0 layers k) j)) ∧
      ∀ j ∈ js, 0 ≤ j → j.toNat < k →
        pyGetD vnone (histBefore vnone save x0 layers k) j =
          (if j.toNat ∈ save then outAt vnone save x0 layers j.toNat
            else vnone)) ∧
    (histBefore vnone save x0 layers (k + 1) =
      histBefore vnone save x0 layers k ++
        [if k ∈ save then outAt vnone save x0 layers k else vnone]) := by
  have hlenk : (histBefore vnone save x0 layers k).length = k :=
    runStates_hist_length vnone save x0 layers k (le_of_lt hk)
  have hread : ∀ j : ℤ, 0 ≤ j → j.toNat < k →
      pyGetD vnone (histBefore vnone save x0 layers k) j =
        (if j.toNat ∈ save then outAt vnone save x0 layers j.toNat
          else vnone) := by
    intro j h0 hjk
    rw [pyGetD_nonneg vnone _ j h0]
    exact runStates_hist_getD vnone save x0 layers hidx k (le_of_lt hk)
      j.toNat hjk
  refine ⟨rfl, ?_, ?_, ?_, ?_, ?_⟩
  · intro hk0
    unfold prevOut outAt
    exact congrArg (fun n => (runStates vnone save x0 layers n).1)
      (by omega)
  · intro hf
    unfold receivedInput
    rw [hf]
    simp [resolveInput]
  · intro j hf h0 hjk
    unfold receivedInput
    rw [hf]
    simp only [resolveInput, if_neg (show j ≠ -1 by omega)]
    rw [hread j h0 hjk]
  · intro js hf
    constructor
    · unfold receivedInput
      rw [hf]
      rfl
    · intro j hmem h0 hjk
      exact hread j h0 hjk
  · have hout : outAt vnone save x0 layers k =
        (stepOnce vnone save (runStates vnone save x0 layers k)
          (layers.get ⟨k, hk⟩)).1 := by
      unfold outAt
      rw [runStates_succ vnone save x0 layers k hk]
    unfold histBefore
    rw [runStates_succ vnone save x0 layers k hk, hout]
    simp only [stepOnce]
    rw [hidx k hk]

/-- A three-layer program over `ℕ` values with `vnone = 0`: increment,
double, then a gather layer summing `[-1, 0]`. -/
def c7ExLayers : List (ELayer ℕ) :=
  [⟨0, .inl (-1), fun inp => match inp with
      | .inl v => v + 1
      | .inr _ => 99⟩,
   ⟨1, .inl (-1), fun inp => match inp with
      | .inl v => v * 2
      | .inr _ => 99⟩,
   ⟨2, .inr [-1, 0], fun inp => match inp with
      | .inl _ => 99
      | .inr l => l.sum⟩]

lemma c7ExLayers_idx :
    ∀ (n : ℕ) (hn : n < c7ExLayers.length), (c7ExLayers.get ⟨n, hn⟩).i = n := by
  intro n hn
  rcases n with _ | _ | _ | n
  · rfl
  · rfl
  · rfl
  · have hlen : c7ExLayers.length = 3 := rfl
    rw [hlen] at hn
    omega

/-- Witness for C7 on the three-layer example with save list `[0]` and
input 5: layer 2's previous output is layer 1's output, the history read
of index 0 returns layer 0's saved output, and that output is 6. -/
theorem c7_forward_once_witness :
    (prevOut (0 : ℕ) [0] 5 c7ExLayers 2 = outAt 0 [0] 5 c7ExLayers 1) ∧
    (pyGetD 0 (histBefore (0 : ℕ) [0] 5 c7ExLayers 2) 0 =
      if (0 : ℕ) ∈ [0] then outAt (0 : ℕ) [0] 5 c7ExLayers 0 else 0) ∧
    outAt (0 : ℕ) [0] 5 c7ExLayers 0 = 6 := by
  have h := c7_forward_once_routing (0 : ℕ) [0] c7ExLayers 5 c7ExLayers_idx
    2 (by decide)
  refine ⟨h.2.1 (by decide), ?_, by decide⟩
  have hmulti := (h.2.2.2.2.1 [-1, 0] rfl).2 0 (by decide) (by decide)
    (by decide)
  simpa using hmulti

end Yolo
